/-
Verification of the worktree registry core: a shallow embedding of the
storage layer (`src/storage/mod.rs`), the target-resolution algorithm
(`src/commands/remove.rs`), the jump name lookup (`src/commands/jump.rs`),
the cleanup branch pass (`src/commands/cleanup.rs`) and the copy-pattern
merge (`src/config/mod.rs`), together with theorems settling the spec's
claims about them.

Mapping files are modelled as `Option String` (`none` = the file is
absent on disk, `some s` = the file exists with content `s`).  Rust
string primitives (`str::lines`, `str::split_once`, `str::contains`,
`Vec::join`) are modelled at the `List Char` level.
-/
import Mathlib

namespace Worktree

/-! ### Rust string primitives -/

/-- Model of Rust `str::lines`: strip one trailing `'\r'` from a line that
was terminated by `'\n'`. -/
def stripCR (l : List Char) : List Char :=
  if l.getLast? = some '\r' then l.dropLast else l

/-- Accumulator-based splitter behind `linesList`; `acc` holds the current
line reversed.  A final line without a terminating `'\n'` is produced
without `'\r'`-stripping, matching Rust. -/
def linesAux : List Char → List Char → List (List Char)
  | acc, [] => if acc.isEmpty then [] else [acc.reverse]
  | acc, c :: rest =>
    if c = '\n' then stripCR acc.reverse :: linesAux [] rest
    else linesAux (c :: acc) rest

/-- Model of Rust `str::lines` on the character list of the content. -/
def linesList (cs : List Char) : List (List Char) :=
  linesAux [] cs

/-- Model of Rust `str::split_once`: split at the first occurrence of
`sep`, returning the parts before and after it. -/
def splitOnceList (sep : List Char) : List Char → Option (List Char × List Char)
  | [] => none
  | c :: rest =>
    if sep.isPrefixOf (c :: rest) then some ([], (c :: rest).drop sep.length)
    else
      match splitOnceList sep rest with
      | some (l, r) => some (c :: l, r)
      | none => none

/-- Model of Rust `str::contains` (substring containment of `needle` in
`hay`). -/
def containsSub (needle : List Char) : List Char → Bool
  | [] => needle.isEmpty
  | c :: rest => needle.isPrefixOf (c :: rest) || containsSub needle rest

/-- Model of Rust `Vec::<String>::join("\n")`. -/
def join_lines : List (List Char) → List Char
  | [] => []
  | [l] => l
  | l :: l' :: ls => l ++ '\n' :: join_lines (l' :: ls)

/-! ### Storage layer (`src/storage/mod.rs`) -/

/-- The characters `sanitize_branch_name` replaces
(`/ \ : * ? " < > |`). -/
def special_chars : List Char := ['/', '\\', ':', '*', '?', '"', '<', '>', '|']

/-- `WorktreeStorage::sanitize_branch_name`: every filesystem-unsafe
character is replaced by `'-'`. -/
def sanitize_branch_name (branch : String) : String :=
  String.mk (branch.data.map (fun c => if special_chars.contains c then '-' else c))

/-- `WorktreeStorage::get_worktree_path`: `root/repo/<sanitized branch>`,
paths modelled as `/`-joined strings. -/
def get_worktree_path (root repo_name branch_name : String) : String :=
  root ++ "/" ++ repo_name ++ "/" ++ sanitize_branch_name branch_name

/-- The separator `" -> "` of the line format `"<sanitized> -> <canonical>"`. -/
def arrow_sep : List Char := [' ', '-', '>', ' ']

/-- The mapping line (without trailing newline) written by
`store_branch_mapping`: `format!("{} -> {}", sanitized, original)`. -/
def search_line (sanitized original : List Char) : List Char :=
  sanitized ++ arrow_sep ++ original

/-- One iteration of the lookup loop of `get_original_branch_name`: parse
the line with `split_once(" -> ")` and return the canonical value when the
parsed key equals `key`. -/
def mapping_row_value (key line : List Char) : Option (List Char) :=
  match splitOnceList arrow_sep line with
  | some (san, orig) => if san = key then some orig else none
  | none => none

/-- `WorktreeStorage::get_original_branch_name`: `none` if the mapping
file is absent, else the canonical value of the first line whose sanitized
key matches. -/
def get_original_branch_name (file : Option String) (sanitized_name : String) :
    Option String :=
  match file with
  | none => none
  | some content =>
    ((linesList content.data).findSome? (mapping_row_value sanitized_name.data)).map
      String.mk

/-- `WorktreeStorage::store_branch_mapping`: read the existing content (an
absent file reads as empty), and append `"<sanitized> -> <original>\n"`
unless the search line already occurs as a substring (`String::contains`)
of the existing content.  Returns the file content after the call. -/
def store_branch_mapping (file : Option String) (original_branch sanitized_branch : String) :
    String :=
  let existing := (file.getD "").data
  let search := search_line sanitized_branch.data original_branch.data
  if containsSub search existing then String.mk existing
  else String.mk (existing ++ search ++ ['\n'])

/-- The filter predicate of `remove_branch_mapping`: keep a line unless it
parses and its canonical value equals the branch being removed
(unparsable lines are kept). -/
def keep_mapping_row (original_branch line : List Char) : Bool :=
  match splitOnceList arrow_sep line with
  | some (_, orig) => orig != original_branch
  | none => true

/-- `WorktreeStorage::remove_branch_mapping`: a no-op if the file is
absent; otherwise keep the lines that do not map to `original_branch`,
re-join them with `'\n'`, and append a trailing newline when the result is
non-empty. -/
def remove_branch_mapping (file : Option String) (original_branch : String) :
    Option String :=
  file.map (fun content =>
    let kept := (linesList content.data).filter (keep_mapping_row original_branch.data)
    let new_content := join_lines kept
    if new_content.isEmpty then String.mk [] else String.mk (new_content ++ ['\n']))

/-! ### Target resolution (`src/commands/remove.rs`, `resolve_target`) -/

/-- The check `target_path.is_absolute()`, for the unix path model: a path
is absolute when it starts with `'/'`. -/
def is_absolute_path (s : String) : Bool :=
  s.data.head? = some '/'

/-- Model of `Path::strip_prefix(base)` on unix path strings: `some rel`
when `target` is `base` or `base ++ "/" ++ rel`, `none` otherwise. -/
def strip_path_under (base target : String) : Option String :=
  if target = base then some (String.mk [])
  else if (base.data ++ ['/']).isPrefixOf target.data then
    some (String.mk (target.data.drop (base.data.length + 1)))
  else none

/-- Model of `Path::file_name` on unix path strings: the last non-empty
`/`-separated component. -/
def path_file_name (p : String) : Option String :=
  ((p.splitOn "/").filter (fun c => c ≠ "")).getLast?

/-- The helper closure `contains_special_chars` of `resolve_target`: the
same character set as `sanitize_branch_name`. -/
def contains_special_chars (s : String) : Bool :=
  s.data.any (fun c => special_chars.contains c)

/-- The `bail!` sites of `resolve_target`. -/
inductive ResolveError
  /-- "Invalid worktree path: {target}" -/
  | invalidPath (target : String)
  /-- "No worktree found for branch '{target}'" -/
  | noWorktreeForBranch (target : String)
  /-- "Cannot determine canonical branch name for '{target}' ..." — the
  `AmbiguousUnresolvable` failure of the spec. -/
  | ambiguousUnresolvable (target : String)
  /-- "No worktree found matching '{target}'" -/
  | noWorktreeMatching (target : String)
deriving DecidableEq, Repr

/-- The effectful context `resolve_target` consults: the storage root and
repository name, the `.branch-mapping` file of the repository, directory
existence on disk, and the local branch list (`none` when opening the
repository or listing branches fails). -/
structure ResolveEnv where
  storage_root : String
  repo_name : String
  mapping : Option String
  dir_exists : String → Bool
  git_branches : Option (List String)

/-- `resolve_target` of `src/commands/remove.rs`, returning the
`(worktree_path, branch_name)` pair or the typed failure. -/
def resolve_target (env : ResolveEnv) (target : String) :
    Except ResolveError (String × String) :=
  if is_absolute_path target then
    match strip_path_under (env.storage_root ++ "/" ++ env.repo_name) target with
    | some rel =>
      match path_file_name rel with
      | some sanitized_name =>
        match get_original_branch_name env.mapping sanitized_name with
        | some original_branch => .ok (target, original_branch)
        | none => .ok (target, sanitized_name)
      | none => .error (.invalidPath target)
    | none => .error (.invalidPath target)
  else if contains_special_chars target then
    let worktree_path := get_worktree_path env.storage_root env.repo_name target
    if env.dir_exists worktree_path then .ok (worktree_path, target)
    else .error (.noWorktreeForBranch target)
  else
    let worktree_path := get_worktree_path env.storage_root env.repo_name target
    if env.dir_exists worktree_path then
      match get_original_branch_name env.mapping target with
      | some original_branch => .ok (worktree_path, original_branch)
      | none =>
        match env.git_branches with
        | some branches =>
          if branches.contains target then .ok (worktree_path, target)
          else .error (.ambiguousUnresolvable target)
        | none => .error (.ambiguousUnresolvable target)
    else
      match get_original_branch_name env.mapping target with
      | some original_branch =>
        let path := get_worktree_path env.storage_root env.repo_name original_branch
        if env.dir_exists path then .ok (path, original_branch)
        else .error (.noWorktreeMatching target)
      | none => .error (.noWorktreeMatching target)

/-! ### Jump name lookup (`src/commands/jump.rs`) -/

/-- One `(repo_name, display_branch, worktree_path)` triple of
`get_available_worktrees`. -/
structure WorktreeEntry where
  repo : String
  branch : String
  path : String
deriving DecidableEq, Repr

/-- The outcome of `find_worktree_by_name`: a path, the "No worktree
found matching" failure, or the "Ambiguous worktree name" failure after
printing each candidate as `repo/branch`. -/
inductive JumpResult
  | found (path : String)
  | notFound (target : String)
  | ambiguous (candidates : List (String × String))
deriving DecidableEq, Repr

/-- `find_worktree_by_name`: first an exact scan over display branch
names returning the first hit, then substring matching with the
zero/one/many case split. -/
def find_worktree_by_name (worktrees : List WorktreeEntry) (target : String) :
    JumpResult :=
  match worktrees.find? (fun e => e.branch == target) with
  | some e => .found e.path
  | none =>
    let ms := worktrees.filter (fun e => containsSub target.data e.branch.data)
    match ms with
    | [] => .notFound target
    | [e] => .found e.path
    | _ => .ambiguous (ms.map (fun e => (e.repo, e.branch)))

/-- The context of `get_available_worktrees` in the all-repositories
mode: `list_all_worktrees()` output, the per-repository `.branch-mapping`
contents, and directory existence. -/
structure JumpEnv where
  storage_root : String
  all_worktrees : List (String × List String)
  mapping_of : String → Option String
  dir_exists : String → Bool

/-- `get_available_worktrees` (all-repositories branch): for every listed
worktree directory that exists, the display name is the mapped canonical
name, falling back to the sanitized directory name when unmapped. -/
def get_available_worktrees (env : JumpEnv) : List WorktreeEntry :=
  env.all_worktrees.flatMap (fun p =>
    p.2.filterMap (fun w =>
      let wp := get_worktree_path env.storage_root p.1 w
      if env.dir_exists wp then
        some ⟨p.1, (get_original_branch_name (env.mapping_of p.1) w).getD w, wp⟩
      else none))

/-! ### Cleanup branch pass (`src/commands/cleanup.rs`) -/

/-- The protected exclusion list `main_branches` of `cleanup_worktrees`. -/
def main_branches : List String := ["main", "master"]

/-- The branch pass of `cleanup_worktrees`: walk the local branches in
order, skip the protected ones and those whose worktree directory exists,
and attempt `delete_branch` on the rest, recording the per-branch outcome
(`true` = deleted) and continuing regardless of it.  `delete_ok` models
the success or failure of `GitRepo::delete_branch`. -/
def cleanup_branch_pass (root repo_name : String) (dir_exists delete_ok : String → Bool) :
    List String → List (String × Bool)
  | [] => []
  | b :: rest =>
    if main_branches.contains b then
      cleanup_branch_pass root repo_name dir_exists delete_ok rest
    else if dir_exists (get_worktree_path root repo_name b) then
      cleanup_branch_pass root repo_name dir_exists delete_ok rest
    else
      (b, delete_ok b) :: cleanup_branch_pass root repo_name dir_exists delete_ok rest

/-! ### Copy-pattern merge (`src/config/mod.rs`) -/

/-- `CopyPatterns`: the optional user `include` / `exclude` lists (the
Lean field names add a suffix because `include` is a Lean keyword). -/
structure CopyPatterns where
  includePats : Option (List String)
  excludePats : Option (List String)
deriving DecidableEq, Repr

/-- `WorktreeConfig::default_include_patterns`. -/
def default_include_patterns : List String :=
  [".env*", ".vscode/", "*.local.json", "config/local/*"]

/-- `WorktreeConfig::default_exclude_patterns`. -/
def default_exclude_patterns : List String :=
  ["node_modules/", "target/", ".git/", "*.log", "*.tmp"]

/-- The merge loop of `merged_with_defaults`, shared by the include and
exclude sides: push each user pattern not already present. -/
def merge_pattern_list (defaults : List String) (user : Option (List String)) :
    List String :=
  match user with
  | none => defaults
  | some ps => ps.foldl (fun acc p => if acc.contains p then acc else acc ++ [p]) defaults

/-- `WorktreeConfig::merged_with_defaults`, restricted to its
`copy_patterns` payload. -/
def merged_with_defaults (c : CopyPatterns) : CopyPatterns :=
  { includePats := some (merge_pattern_list default_include_patterns c.includePats)
    excludePats := some (merge_pattern_list default_exclude_patterns c.excludePats) }

/-- Spec-side rendering of §4.4 / C6 ("the default list followed by each
user pattern not already present, in user order without duplicates"): the
user patterns that get appended after `base`. -/
def spec_new_patterns (base : List String) : List String → List String
  | [] => []
  | p :: ps =>
    if p ∈ base then spec_new_patterns base ps
    else p :: spec_new_patterns (base ++ [p]) ps

/-- Spec-side merged list: the defaults followed by the new user
patterns. -/
def spec_merged_patterns (base user : List String) : List String :=
  base ++ spec_new_patterns base user

/-! ### Lemmas about the string primitives -/

theorem stripCR_eq_self {l : List Char} (h : l.getLast? ≠ some '\r') :
    stripCR l = l := by
  simp [stripCR, h]

theorem linesAux_nil (acc : List Char) :
    linesAux acc [] = if acc.isEmpty then [] else [acc.reverse] := rfl

theorem linesAux_cons (acc : List Char) (c : Char) (rest : List Char) :
    linesAux acc (c :: rest) =
      if c = '\n' then stripCR acc.reverse :: linesAux [] rest
      else linesAux (c :: acc) rest := rfl

theorem linesAux_append_of_getLast {T : List Char} (R acc : List Char)
    (h : T.getLast? = some '\n') :
    linesAux acc (T ++ R) = linesAux acc T ++ linesAux [] R := by
  induction T generalizing acc with
  | nil => simp at h
  | cons c T' ih =>
    cases T' with
    | nil =>
      simp only [List.getLast?_singleton, Option.some.injEq] at h
      subst h
      rw [List.cons_append, linesAux_cons, if_pos rfl, linesAux_cons, if_pos rfl,
        linesAux_nil]
      simp
    | cons d T'' =>
      have h' : (d :: T'').getLast? = some '\n' := by
        simpa [List.getLast?_cons_cons] using h
      by_cases hc : c = '\n'
      · subst hc
        rw [List.cons_append, linesAux_cons, if_pos rfl, ih _ h']
        conv_rhs => rw [linesAux_cons, if_pos rfl]
        rw [List.cons_append]
      · rw [List.cons_append, linesAux_cons, if_neg hc, ih _ h']
        conv_rhs => rw [linesAux_cons, if_neg hc]

theorem linesAux_line {l : List Char} (h : '\n' ∉ l) (acc rest : List Char) :
    linesAux acc (l ++ '\n' :: rest) = stripCR (acc.reverse ++ l) :: linesAux [] rest := by
  induction l generalizing acc with
  | nil =>
    rw [List.nil_append, linesAux_cons, if_pos rfl]
    simp
  | cons c l' ih =>
    have hc : c ≠ '\n' := fun hc => h (hc ▸ List.mem_cons_self c l')
    have hl' : '\n' ∉ l' := fun hm => h (List.mem_cons_of_mem c hm)
    rw [List.cons_append, linesAux_cons, if_neg hc, ih hl' (c :: acc)]
    simp

theorem linesList_single {l : List Char} (h : '\n' ∉ l) :
    linesList (l ++ ['\n']) = [stripCR l] := by
  have := linesAux_line h [] []
  simpa [linesList, linesAux] using this

theorem linesList_append_line {T l : List Char}
    (hT : T = [] ∨ T.getLast? = some '\n') (hl : '\n' ∉ l)
    (hcr : l.getLast? ≠ some '\r') :
    linesList (T ++ (l ++ ['\n'])) = linesList T ++ [l] := by
  rcases hT with hT | hT
  · subst hT
    simpa [stripCR_eq_self hcr] using linesList_single hl
  · rw [linesList, linesAux_append_of_getLast _ _ hT]
    rw [show linesAux [] (l ++ ['\n']) = linesList (l ++ ['\n']) from rfl,
      linesList_single hl, stripCR_eq_self hcr]
    rfl

theorem stripCR_subset (l : List Char) : stripCR l ⊆ l := by
  unfold stripCR
  split
  · exact (List.dropLast_sublist l).subset
  · exact fun x hx => hx

theorem mem_linesAux_no_newline {cs : List Char} {acc : List Char}
    (hacc : '\n' ∉ acc) : ∀ l ∈ linesAux acc cs, '\n' ∉ l := by
  induction cs generalizing acc with
  | nil =>
    intro l hl
    simp only [linesAux] at hl
    split at hl
    · simp at hl
    · simp only [List.mem_singleton] at hl
      subst hl
      simpa using hacc
  | cons c rest ih =>
    intro l hl
    simp only [linesAux] at hl
    split at hl
    next hc =>
      rcases List.mem_cons.1 hl with hl | hl
      · subst hl
        intro hmem
        exact hacc (by simpa using stripCR_subset _ hmem)
      · exact ih (by simp) l hl
    next hc =>
      refine ih ?_ l hl
      intro hm
      rcases List.mem_cons.1 hm with hm | hm
      · exact hc hm.symm
      · exact hacc hm

theorem splitOnceList_cons (sep : List Char) (c : Char) (rest : List Char) :
    splitOnceList sep (c :: rest) =
      if sep.isPrefixOf (c :: rest) then some ([], (c :: rest).drop sep.length)
      else
        match splitOnceList sep rest with
        | some (l, r) => some (c :: l, r)
        | none => none := rfl

theorem isPrefixOf_append_self (n rest : List Char) :
    n.isPrefixOf (n ++ rest) = true := by
  induction n with
  | nil => simp [List.isPrefixOf]
  | cons a as ih => simp [List.isPrefixOf, ih]

/-- `" -> "` cannot start strictly inside `s ++ " -> " ++ c` before the
separator position, when `s` contains no `'>'`. -/
theorem arrow_sep_no_early_match {a : Char} {s' : List Char} (c : List Char)
    (hgt : '>' ∉ a :: s') :
    arrow_sep.isPrefixOf (a :: (s' ++ (arrow_sep ++ c))) = false := by
  cases s' with
  | nil => simp +decide [arrow_sep, List.isPrefixOf]
  | cons b s'' =>
    cases s'' with
    | nil => simp +decide [arrow_sep, List.isPrefixOf]
    | cons d s''' =>
      have hd : d ≠ '>' := by
        intro h
        exact hgt (by simp [h])
      have hbeq : ('>' == d) = false := beq_eq_false_iff_ne.mpr (Ne.symm hd)
      simp [arrow_sep, List.isPrefixOf, hbeq]

theorem splitOnce_search_line {s : List Char} (c : List Char) (hgt : '>' ∉ s) :
    splitOnceList arrow_sep (search_line s c) = some (s, c) := by
  induction s with
  | nil =>
    show splitOnceList arrow_sep (arrow_sep ++ c) = some ([], c)
    rw [show arrow_sep ++ c = ' ' :: (['-', '>', ' '] ++ c) from rfl,
      splitOnceList_cons,
      if_pos (by exact isPrefixOf_append_self arrow_sep c)]
    rw [show (' ' :: (['-', '>', ' '] ++ c)) = arrow_sep ++ c from rfl]
    rw [show arrow_sep.length = arrow_sep.length from rfl, List.drop_left]
  | cons a s' ih =>
    have hgt' : '>' ∉ s' := fun hm => hgt (List.mem_cons_of_mem a hm)
    have hline : search_line (a :: s') c = a :: (s' ++ (arrow_sep ++ c)) := by
      simp [search_line]
    rw [hline, splitOnceList_cons, if_neg (by rw [arrow_sep_no_early_match c hgt]; simp)]
    have ih' := ih hgt'
    rw [show s' ++ (arrow_sep ++ c) = search_line s' c by simp [search_line], ih']

theorem mapping_row_value_search {s : List Char} (c : List Char) (hgt : '>' ∉ s) :
    mapping_row_value s (search_line s c) = some c := by
  simp [mapping_row_value, splitOnce_search_line c hgt]

theorem containsSub_append_right (needle T rest : List Char) :
    containsSub needle (T ++ (needle ++ rest)) = true := by
  induction T with
  | nil =>
    rw [List.nil_append]
    cases needle with
    | nil => cases rest <;> simp [containsSub, List.isPrefixOf]
    | cons n ns =>
      rw [List.cons_append, containsSub,
        show n :: (ns ++ rest) = (n :: ns) ++ rest from rfl,
        isPrefixOf_append_self]
      rfl
  | cons t T' ih => simp [containsSub, ih]

theorem join_lines_ne_nil {l : List Char} (ls : List (List Char)) (hl : l ≠ []) :
    join_lines (l :: ls) ≠ [] := by
  cases ls with
  | nil => simpa [join_lines] using hl
  | cons l' ls' =>
    cases l <;> simp [join_lines]

theorem linesList_join_lines {ls : List (List Char)}
    (h : ∀ l ∈ ls, '\n' ∉ l ∧ l ≠ [] ∧ l.getLast? ≠ some '\r') :
    linesList (if (join_lines ls).isEmpty then [] else join_lines ls ++ ['\n']) = ls := by
  induction ls with
  | nil => simp [join_lines, linesList, linesAux]
  | cons l ls ih =>
    have hl := h l (List.mem_cons_self _ _)
    have hne : (join_lines (l :: ls)).isEmpty = false := by
      have := join_lines_ne_nil ls hl.2.1
      simpa [List.isEmpty_iff] using this
    rw [hne]
    simp only [Bool.false_eq_true, if_false]
    cases ls with
    | nil =>
      show linesList (l ++ ['\n']) = [l]
      rw [linesList_single hl.1, stripCR_eq_self hl.2.2]
    | cons l' ls' =>
      have hrest : ∀ x ∈ l' :: ls', '\n' ∉ x ∧ x ≠ [] ∧ x.getLast? ≠ some '\r' :=
        fun x hx => h x (List.mem_cons_of_mem l hx)
      have hne' : (join_lines (l' :: ls')).isEmpty = false := by
        have := join_lines_ne_nil ls' (hrest l' (List.mem_cons_self _ _)).2.1
        simpa [List.isEmpty_iff] using this
      have ihr := ih hrest
      rw [hne'] at ihr
      simp only [Bool.false_eq_true, if_false] at ihr
      rw [show join_lines (l :: l' :: ls') = l ++ '\n' :: join_lines (l' :: ls') from rfl,
        List.append_assoc]
      rw [show ('\n' :: join_lines (l' :: ls')) ++ ['\n']
            = '\n' :: (join_lines (l' :: ls') ++ ['\n']) from rfl]
      rw [linesList, linesAux_line hl.1]
      rw [show linesAux [] (join_lines (l' :: ls') ++ ['\n'])
            = linesList (join_lines (l' :: ls') ++ ['\n']) from rfl, ihr]
      rw [List.reverse_nil, List.nil_append, stripCR_eq_self hl.2.2]

theorem search_line_no_newline {s c : List Char} (hs : '\n' ∉ s) (hc : '\n' ∉ c) :
    '\n' ∉ search_line s c := by
  intro hm
  rcases List.mem_append.1 hm with hm | hm
  · rcases List.mem_append.1 hm with hm | hm
    · exact hs hm
    · simp [arrow_sep] at hm
  · exact hc hm

theorem search_line_getLast {s c : List Char} (hcr : c.getLast? ≠ some '\r') :
    (search_line s c).getLast? ≠ some '\r' := by
  unfold search_line
  cases hc : c.getLast? with
  | none =>
    have hcnil : c = [] := by simpa using hc
    subst hcnil
    simp [arrow_sep, List.getLast?_append]
  | some x =>
    have hx : x ≠ '\r' := by
      intro h
      exact hcr (by rw [hc, h])
    simp [List.getLast?_append, hc, hx]

theorem store_branch_mapping_data {file : Option String} {canonical sanitized : String}
    (h : containsSub (search_line sanitized.data canonical.data) (file.getD "").data
      = false) :
    (store_branch_mapping file canonical sanitized).data
      = (file.getD "").data ++ (search_line sanitized.data canonical.data ++ ['\n']) := by
  simp [store_branch_mapping, h, List.append_assoc]

theorem findSome?_filter_eq_of_keep {α β : Type} (f : α → Option β) (p : α → Bool)
    (l : List α) (h : ∀ x ∈ l, p x = false → f x = none) :
    (l.filter p).findSome? f = l.findSome? f := by
  induction l with
  | nil => rfl
  | cons a l ih =>
    have ha := h a (List.mem_cons_self _ _)
    have hrest : ∀ x ∈ l, p x = false → f x = none :=
      fun x hx => h x (List.mem_cons_of_mem a hx)
    by_cases hp : p a = true
    · rw [List.filter_cons_of_pos hp, List.findSome?_cons, List.findSome?_cons]
      cases hfa : f a <;> simp [ih hrest]
    · have hp' : p a = false := by simpa using hp
      rw [List.filter_cons_of_neg (by simp [hp']), ih hrest, List.findSome?_cons,
        ha hp']

theorem findSome?_filter_eq_none {α β : Type} (f : α → Option β) (p : α → Bool)
    (l : List α) (h : ∀ x ∈ l, f x ≠ none → p x = false) :
    (l.filter p).findSome? f = none := by
  induction l with
  | nil => rfl
  | cons a l ih =>
    have hrest : ∀ x ∈ l, f x ≠ none → p x = false :=
      fun x hx => h x (List.mem_cons_of_mem a hx)
    by_cases hp : p a = true
    · have hfa : f a = none := by
        by_contra hfa
        rw [h a (List.mem_cons_self _ _) hfa] at hp
        simp at hp
      rw [List.filter_cons_of_pos hp, List.findSome?_cons, hfa, ih hrest]
    · rw [List.filter_cons_of_neg (by simpa using hp), ih hrest]

/-! ### Claim theorems: the Registry Store -/

/-- C8: `store_branch_mapping` is idempotent — storing the same
`(canonical, sanitized)` pair twice in succession leaves the mapping file
with exactly the same content as storing it once; the identical pair is
never appended a second time. -/
theorem store_branch_mapping_idempotent (file : Option String)
    (canonical sanitized : String) :
    store_branch_mapping (some (store_branch_mapping file canonical sanitized))
        canonical sanitized
      = store_branch_mapping file canonical sanitized := by
  by_cases h : containsSub (search_line sanitized.data canonical.data)
      (file.getD "").data = true
  · simp [store_branch_mapping, h]
  · have h' : containsSub (search_line sanitized.data canonical.data)
        (file.getD "").data = false := by simpa using h
    have h2 : containsSub (search_line sanitized.data canonical.data)
        ((file.getD "").data ++ (search_line sanitized.data canonical.data ++ ['\n']))
        = true := containsSub_append_right _ _ _
    simp [store_branch_mapping, h', List.append_assoc, h2]

/-- C8 witness: idempotence at a concrete store. -/
theorem store_branch_mapping_idempotent_witness :
    store_branch_mapping (some (store_branch_mapping none "feature/x" "feature-x"))
        "feature/x" "feature-x"
      = store_branch_mapping none "feature/x" "feature-x" :=
  store_branch_mapping_idempotent none "feature/x" "feature-x"

/-- C2 counterexample: storing `("c2", "s")` after an earlier collision
row `("c1", "s")` leaves `get_original_branch_name` returning the
earliest row's canonical `"c1"`, not the stored `"c2"` — the claimed
store-then-get round-trip fails on this reachable state. -/
theorem store_then_get_claim_cex :
    get_original_branch_name
        (some (store_branch_mapping (some (store_branch_mapping none "c1" "s")) "c2" "s"))
        "s" = some "c1"
      ∧ ("c1" : String) ≠ "c2" := by
  constructor
  · decide
  · decide

/-- C2 (amended): `store_branch_mapping` followed by
`get_original_branch_name` on the same sanitized key returns the stored
canonical name, provided the pre-existing content is empty or
newline-terminated, has no row with that sanitized key, does not already
contain the pair's search line as a substring, and the names contain no
newline, the sanitized name no `'>'`, and the canonical name no trailing
carriage return.  The file content is the persisted state, so the
equation is stable across process restart. -/
theorem store_then_get_amended (file : Option String) (canonical sanitized : String)
    (hwf : (file.getD "").data = [] ∨ (file.getD "").data.getLast? = some '\n')
    (hfresh : ∀ row ∈ linesList (file.getD "").data,
      mapping_row_value sanitized.data row = none)
    (hsub : containsSub (search_line sanitized.data canonical.data) (file.getD "").data
      = false)
    (hgt : '>' ∉ sanitized.data)
    (hnls : '\n' ∉ sanitized.data) (hnlc : '\n' ∉ canonical.data)
    (hcr : canonical.data.getLast? ≠ some '\r') :
    get_original_branch_name (some (store_branch_mapping file canonical sanitized))
      sanitized = some canonical := by
  have hlines : linesList (store_branch_mapping file canonical sanitized).data
      = linesList (file.getD "").data ++ [search_line sanitized.data canonical.data] := by
    rw [store_branch_mapping_data hsub]
    exact linesList_append_line hwf (search_line_no_newline hnls hnlc)
      (search_line_getLast hcr)
  have h1 : (linesList (file.getD "").data).findSome?
      (mapping_row_value sanitized.data) = none :=
    List.findSome?_eq_none_iff.mpr hfresh
  show ((linesList (store_branch_mapping file canonical sanitized).data).findSome?
      (mapping_row_value sanitized.data)).map String.mk = some canonical
  rw [hlines, List.findSome?_append, h1, Option.none_or, List.findSome?_cons,
    mapping_row_value_search canonical.data hgt]
  rfl

/-- C2 witness: the amended round-trip at a concrete store over a
pre-existing unrelated row. -/
theorem store_then_get_amended_witness :
    get_original_branch_name
        (some (store_branch_mapping (some "x -> y\n") "feature/x" "feature-x"))
        "feature-x" = some "feature/x" :=
  store_then_get_amended (some "x -> y\n") "feature/x" "feature-x"
    (by decide) (by decide) (by decide) (by decide) (by decide) (by decide) (by decide)

/-- C3 counterexample: after storing `("a/b", "a-b")` and then
`("a:b", "a-b")`, the mapping file holds two rows whose sanitized key is
`"a-b"` (not at most one), and lookup returns the earliest pair's
canonical `"a/b"` (not the most recently written `"a:b"`). -/
theorem mapping_single_row_claim_cex :
    linesList (store_branch_mapping (some (store_branch_mapping none "a/b" "a-b"))
        "a:b" "a-b").data
      = ["a-b -> a/b".data, "a-b -> a:b".data]
    ∧ get_original_branch_name
        (some (store_branch_mapping (some (store_branch_mapping none "a/b" "a-b"))
          "a:b" "a-b")) "a-b" = some "a/b"
    ∧ ("a/b" : String) ≠ "a:b" := by
  refine ⟨by decide, by decide, by decide⟩

/-- C3 (amended): each identical `(sanitized, canonical)` pair is
suppressed on re-write, but two distinct canonical names colliding on one
sanitized key each keep their own row — the file then holds both pairs in
write order, and lookup returns the earliest-written canonical, provided
the pre-existing content is well-formed as in C2 and neither write is
skipped by the substring-containment check. -/
theorem mapping_collision_amended (file : Option String) (c1 c2 s : String)
    (hwf : (file.getD "").data = [] ∨ (file.getD "").data.getLast? = some '\n')
    (hfresh : ∀ row ∈ linesList (file.getD "").data,
      mapping_row_value s.data row = none)
    (hsub1 : containsSub (search_line s.data c1.data) (file.getD "").data = false)
    (hsub2 : containsSub (search_line s.data c2.data)
      ((file.getD "").data ++ (search_line s.data c1.data ++ ['\n'])) = false)
    (hgt : '>' ∉ s.data) (hnls : '\n' ∉ s.data)
    (hnl1 : '\n' ∉ c1.data) (hnl2 : '\n' ∉ c2.data)
    (hcr1 : c1.data.getLast? ≠ some '\r') (hcr2 : c2.data.getLast? ≠ some '\r') :
    linesList (store_branch_mapping (some (store_branch_mapping file c1 s)) c2 s).data
        = linesList (file.getD "").data
            ++ [search_line s.data c1.data, search_line s.data c2.data]
    ∧ get_original_branch_name
        (some (store_branch_mapping (some (store_branch_mapping file c1 s)) c2 s)) s
        = some c1 := by
  have h1data : (store_branch_mapping file c1 s).data
      = (file.getD "").data ++ (search_line s.data c1.data ++ ['\n']) :=
    store_branch_mapping_data hsub1
  have hsub2' : containsSub (search_line s.data c2.data)
      ((some (store_branch_mapping file c1 s)).getD "").data = false := by
    simpa [h1data] using hsub2
  have h2data : (store_branch_mapping (some (store_branch_mapping file c1 s)) c2 s).data
      = (store_branch_mapping file c1 s).data ++ (search_line s.data c2.data ++ ['\n']) :=
    store_branch_mapping_data hsub2'
  have hwf1 : (store_branch_mapping file c1 s).data = []
      ∨ (store_branch_mapping file c1 s).data.getLast? = some '\n' := by
    right
    rw [h1data, show (file.getD "").data ++ (search_line s.data c1.data ++ ['\n'])
      = ((file.getD "").data ++ search_line s.data c1.data) ++ ['\n'] by
        rw [List.append_assoc]]
    exact List.getLast?_concat _
  have hlines1 : linesList (store_branch_mapping file c1 s).data
      = linesList (file.getD "").data ++ [search_line s.data c1.data] := by
    rw [h1data]
    exact linesList_append_line hwf (search_line_no_newline hnls hnl1)
      (search_line_getLast hcr1)
  have hlines2 : linesList
      (store_branch_mapping (some (store_branch_mapping file c1 s)) c2 s).data
      = linesList (file.getD "").data
          ++ [search_line s.data c1.data, search_line s.data c2.data] := by
    rw [h2data,
      linesList_append_line hwf1 (search_line_no_newline hnls hnl2)
        (search_line_getLast hcr2),
      hlines1, List.append_assoc]
    rfl
  refine ⟨hlines2, ?_⟩
  have h1 : (linesList (file.getD "").data).findSome? (mapping_row_value s.data)
      = none := List.findSome?_eq_none_iff.mpr hfresh
  show ((linesList (store_branch_mapping (some (store_branch_mapping file c1 s)) c2 s).data).findSome?
      (mapping_row_value s.data)).map String.mk = some c1
  rw [hlines2, List.findSome?_append, h1, Option.none_or, List.findSome?_cons,
    mapping_row_value_search c1.data hgt]
  rfl

/-- C3 witness: the amended collision behavior at the concrete pair of
stores from the scenario (`"a/b"` and `"a:b"` both sanitize to `"a-b"`). -/
theorem mapping_collision_amended_witness :
    linesList (store_branch_mapping (some (store_branch_mapping none "a/b" "a-b"))
        "a:b" "a-b").data
      = linesList ((none : Option String).getD "").data
          ++ [search_line "a-b".data "a/b".data, search_line "a-b".data "a:b".data]
    ∧ get_original_branch_name
        (some (store_branch_mapping (some (store_branch_mapping none "a/b" "a-b"))
          "a:b" "a-b")) "a-b" = some "a/b" :=
  mapping_collision_amended none "a/b" "a:b" "a-b"
    (by decide) (by decide) (by decide) (by decide) (by decide) (by decide)
    (by decide) (by decide) (by decide) (by decide)

/-- C7 counterexample: with two rows colliding on the sanitized key
`"a-b"`, removing canonical `"a/b"` leaves the other row, so a subsequent
get for the removed canonical's sanitized key returns `some "a:b"`, not
none as the claim asserts. -/
theorem remove_mapping_claim_cex :
    get_original_branch_name
        (remove_branch_mapping
          (some (store_branch_mapping (some (store_branch_mapping none "a/b" "a-b"))
            "a:b" "a-b")) "a/b")
        "a-b" = some "a:b" := by
  decide

/-- C7 (amended): `remove_branch_mapping` is a no-op on an absent file;
on a present file whose lines are non-empty without trailing carriage
returns it drops exactly the rows whose canonical value matches and keeps
every other line unchanged in order; consequently a get for a key none of
whose rows are dropped is unchanged, and a get for a key all of whose
rows are dropped returns none (in particular the removed canonical's key,
provided no colliding row with that key survives). -/
theorem remove_branch_mapping_amended (content : String) (canonical : String)
    (hrows : ∀ row ∈ linesList content.data, row ≠ [] ∧ row.getLast? ≠ some '\r') :
    remove_branch_mapping none canonical = none
    ∧ (∀ r, remove_branch_mapping (some content) canonical = some r →
        linesList r.data
          = (linesList content.data).filter (keep_mapping_row canonical.data))
    ∧ (∀ key : String,
        (∀ row ∈ linesList content.data,
          mapping_row_value key.data row ≠ none →
            keep_mapping_row canonical.data row = true) →
        get_original_branch_name (remove_branch_mapping (some content) canonical) key
          = get_original_branch_name (some content) key)
    ∧ (∀ key : String,
        (∀ row ∈ linesList content.data,
          mapping_row_value key.data row ≠ none →
            keep_mapping_row canonical.data row = false) →
        get_original_branch_name (remove_branch_mapping (some content) canonical) key
          = none) := by
  have hkept : ∀ l ∈ (linesList content.data).filter (keep_mapping_row canonical.data),
      '\n' ∉ l ∧ l ≠ [] ∧ l.getLast? ≠ some '\r' := by
    intro l hl
    have hmem : l ∈ linesList content.data := List.mem_of_mem_filter hl
    exact ⟨mem_linesAux_no_newline (by simp) l hmem, (hrows l hmem).1,
      (hrows l hmem).2⟩
  have hframe : ∀ r, remove_branch_mapping (some content) canonical = some r →
      linesList r.data
        = (linesList content.data).filter (keep_mapping_row canonical.data) := by
    intro r hr
    have hr' : r = (if (join_lines ((linesList content.data).filter
          (keep_mapping_row canonical.data))).isEmpty then String.mk []
        else String.mk (join_lines ((linesList content.data).filter
          (keep_mapping_row canonical.data)) ++ ['\n'])) := by
      simpa [remove_branch_mapping] using hr.symm
    have hdata : r.data = (if (join_lines ((linesList content.data).filter
          (keep_mapping_row canonical.data))).isEmpty then []
        else join_lines ((linesList content.data).filter
          (keep_mapping_row canonical.data)) ++ ['\n']) := by
      rw [hr']
      split <;> rfl
    rw [hdata]
    exact linesList_join_lines hkept
  have hsome : remove_branch_mapping (some content) canonical
      = some (if (join_lines ((linesList content.data).filter
          (keep_mapping_row canonical.data))).isEmpty then String.mk []
        else String.mk (join_lines ((linesList content.data).filter
          (keep_mapping_row canonical.data)) ++ ['\n'])) := by
    simp [remove_branch_mapping]
  refine ⟨rfl, hframe, ?_, ?_⟩
  · intro key hkey
    have hflines := hframe _ hsome
    show ((linesList _).findSome? (mapping_row_value key.data)).map String.mk
        = ((linesList content.data).findSome? (mapping_row_value key.data)).map String.mk
    rw [hflines,
      findSome?_filter_eq_of_keep (mapping_row_value key.data)
        (keep_mapping_row canonical.data) (linesList content.data) ?keep]
    case keep =>
      intro row hrow hkeep
      by_contra hne
      rw [hkey row hrow hne] at hkeep
      simp at hkeep
  · intro key hkey
    have hflines := hframe _ hsome
    show ((linesList _).findSome? (mapping_row_value key.data)).map String.mk = none
    rw [hflines,
      findSome?_filter_eq_none (mapping_row_value key.data)
        (keep_mapping_row canonical.data) (linesList content.data) hkey]
    rfl

/-- C7 witness: removing `"feature/x"` from a two-row file drops its row
(get returns none) and preserves the unrelated row (get unchanged). -/
theorem remove_branch_mapping_amended_witness :
    get_original_branch_name
        (remove_branch_mapping (some "feature-x -> feature/x\nother -> o\n") "feature/x")
        "feature-x" = none
    ∧ get_original_branch_name
        (remove_branch_mapping (some "feature-x -> feature/x\nother -> o\n") "feature/x")
        "other" = some "o" := by
  constructor
  · exact (remove_branch_mapping_amended "feature-x -> feature/x\nother -> o\n"
      "feature/x" (by decide)).2.2.2 "feature-x" (by decide)
  · exact ((remove_branch_mapping_amended "feature-x -> feature/x\nother -> o\n"
      "feature/x" (by decide)).2.2.1 "other" (by decide)).trans (by decide)

/-! ### Claim theorems: the Target Resolution Engine -/

theorem get_original_branch_name_eq_none {mapping : Option String} {target : String}
    (hmap : ∀ content, mapping = some content →
      ∀ row ∈ linesList content.data, mapping_row_value target.data row = none) :
    get_original_branch_name mapping target = none := by
  cases hm : mapping with
  | none => rfl
  | some content =>
    show ((linesList content.data).findSome? (mapping_row_value target.data)).map
        String.mk = none
    rw [List.findSome?_eq_none_iff.mpr (hmap content hm)]
    rfl

theorem not_absolute_of_no_special {target : String}
    (hchars : contains_special_chars target = false) :
    is_absolute_path target = false := by
  have hslash : '/' ∉ target.data := by
    intro hm
    have : target.data.any (fun c => special_chars.contains c) = true :=
      List.any_eq_true.mpr ⟨'/', hm, by decide⟩
    rw [contains_special_chars] at hchars
    rw [hchars] at this
    exact Bool.false_ne_true this
  unfold is_absolute_path
  cases htd : target.data with
  | nil => rfl
  | cons c rest =>
    have hc : c ≠ '/' := by
      intro h
      exact hslash (htd ▸ (h ▸ List.mem_cons_self c rest))
    simp [hc]

/-- C1: for a name-like target with no filesystem-unsafe characters whose
storage directory exists, when the mapping file has no row with that
sanitized key and the version-control system has no local branch exactly
equal to it, `resolve_target` fails with the `AmbiguousUnresolvable`
error and never returns a `(path, branch)` pair. -/
theorem resolve_target_unmapped_unbranched (env : ResolveEnv) (target : String)
    (hchars : contains_special_chars target = false)
    (hdir : env.dir_exists (get_worktree_path env.storage_root env.repo_name target)
      = true)
    (hmap : ∀ content, env.mapping = some content →
      ∀ row ∈ linesList content.data, mapping_row_value target.data row = none)
    (hbr : ∀ bs, env.git_branches = some bs → target ∉ bs) :
    resolve_target env target = .error (.ambiguousUnresolvable target) := by
  have habs := not_absolute_of_no_special hchars
  have hmapnone := get_original_branch_name_eq_none hmap
  simp only [resolve_target, habs, hchars, Bool.false_eq_true, if_false, hdir,
    if_true, hmapnone]
  cases hb : env.git_branches with
  | none => rfl
  | some bs =>
    have hnotmem := hbr bs hb
    have hc : bs.contains target = false := by
      rw [Bool.eq_false_iff]
      intro hcon
      exact hnotmem (List.elem_iff.mp hcon)
    simp only [hc, Bool.false_eq_true, if_false]

/-- C1 witness: a concrete environment with an existing directory, an
unrelated mapping row and no matching branch yields the ambiguity
failure. -/
theorem resolve_target_unmapped_unbranched_witness :
    resolve_target
        ⟨"/root", "demo", some "x -> y\n", fun p => p == "/root/demo/feat",
          some ["main"]⟩ "feat"
      = .error (.ambiguousUnresolvable "feat") :=
  resolve_target_unmapped_unbranched _ "feat" (by decide) (by decide)
    (by intro content hc; injection hc with h; subst h; decide)
    (by intro bs hb; injection hb with h; subst h; decide)

/-- C9: for a name-like target with no filesystem-unsafe characters whose
storage directory exists, when no mapping row has that sanitized key but
a local branch exactly equal to the target exists, `resolve_target`
returns the target unchanged as the canonical branch, with its storage
path and no ambiguity error. -/
theorem resolve_target_roundtrip (env : ResolveEnv) (target : String)
    (bs : List String)
    (hchars : contains_special_chars target = false)
    (hdir : env.dir_exists (get_worktree_path env.storage_root env.repo_name target)
      = true)
    (hmap : ∀ content, env.mapping = some content →
      ∀ row ∈ linesList content.data, mapping_row_value target.data row = none)
    (hbs : env.git_branches = some bs) (hmem : target ∈ bs) :
    resolve_target env target
      = .ok (get_worktree_path env.storage_root env.repo_name target, target) := by
  have habs := not_absolute_of_no_special hchars
  have hmapnone := get_original_branch_name_eq_none hmap
  have hc : bs.contains target = true := List.elem_iff.mpr hmem
  simp only [resolve_target, habs, hchars, Bool.false_eq_true, if_false, hdir,
    if_true, hmapnone, hbs, hc]

/-- C9 witness: a concrete environment where the target is a real branch
with an existing directory and no mapping row resolves to itself. -/
theorem resolve_target_roundtrip_witness :
    resolve_target
        ⟨"/root", "demo", some "x -> y\n", fun p => p == "/root/demo/feat",
          some ["feat", "main"]⟩ "feat"
      = .ok ("/root/demo/feat", "feat") :=
  (resolve_target_roundtrip _ "feat" ["feat", "main"] (by decide) (by decide)
    (by intro content hc; injection hc with h; subst h; decide)
    rfl (by decide)).trans (by rfl)

/-! ### Claim theorems: jump name lookup -/

/-- C4: in partial-match mode, when no display name equals the target
exactly, `find_worktree_by_name` fails with `NotFound` on zero substring
matches, returns the unique path on exactly one, and on two or more fails
with the `Ambiguous` error carrying every candidate's qualified
`(repository, branch)` identity, never silently returning one of them. -/
theorem find_worktree_partial_match (ws : List WorktreeEntry) (target : String)
    (hexact : ∀ e ∈ ws, e.branch ≠ target) :
    (ws.filter (fun e => containsSub target.data e.branch.data) = [] →
        find_worktree_by_name ws target = .notFound target)
    ∧ (∀ e, ws.filter (fun e => containsSub target.data e.branch.data) = [e] →
        find_worktree_by_name ws target = .found e.path)
    ∧ (2 ≤ (ws.filter (fun e => containsSub target.data e.branch.data)).length →
        find_worktree_by_name ws target
          = .ambiguous ((ws.filter (fun e => containsSub target.data e.branch.data)).map
              (fun e => (e.repo, e.branch)))) := by
  have hfind : ws.find? (fun e => e.branch == target) = none := by
    rw [List.find?_eq_none]
    intro e he
    simpa using hexact e he
  simp only [find_worktree_by_name, hfind]
  refine ⟨?_, ?_, ?_⟩
  · intro h
    rw [h]
  · intro e h
    rw [h]
  · intro h
    rcases hms : ws.filter (fun e => containsSub target.data e.branch.data)
      with _ | ⟨a, _ | ⟨b, t⟩⟩
    · rw [hms] at h
      simp at h
    · rw [hms] at h
      simp at h
    · rw [hms]

/-- C4 witness: two substring candidates produce the ambiguity failure
with both qualified identities listed. -/
theorem find_worktree_partial_match_witness :
    find_worktree_by_name
        [⟨"r1", "feature/x", "p1"⟩, ⟨"r2", "fix/x", "p2"⟩] "x"
      = .ambiguous [("r1", "feature/x"), ("r2", "fix/x")] :=
  ((find_worktree_partial_match
      [⟨"r1", "feature/x", "p1"⟩, ⟨"r2", "fix/x", "p2"⟩] "x" (by decide)).2.2
    (by decide)).trans (by decide)

/-- C10: exact matching in jump is not ambiguity-checked — whenever the
exact scan over the enumerated worktrees finds a first entry whose
display name equals the target, its path is returned silently, with no
`Ambiguous` error, even if later worktrees (in other repositories) share
the same display name. -/
theorem find_worktree_exact_first (env : JumpEnv) (target : String)
    (e : WorktreeEntry)
    (hfind : (get_available_worktrees env).find? (fun x => x.branch == target)
      = some e) :
    find_worktree_by_name (get_available_worktrees env) target = .found e.path
    ∧ ∀ cands, find_worktree_by_name (get_available_worktrees env) target
        ≠ .ambiguous cands := by
  have h : find_worktree_by_name (get_available_worktrees env) target
      = .found e.path := by
    simp only [find_worktree_by_name, hfind]
  exact ⟨h, fun cands hc => by rw [h] at hc; exact JumpResult.noConfusion hc⟩

/-- C10 witness: two repositories sharing the display name `"feat"` —
the first worktree's path in enumeration order is returned, silently. -/
theorem find_worktree_exact_first_witness :
    find_worktree_by_name
        (get_available_worktrees
          ⟨"/root", [("repoA", ["feat"]), ("repoB", ["feat"])],
            fun _ => none, fun _ => true⟩) "feat"
      = .found "/root/repoA/feat" :=
  (find_worktree_exact_first
      ⟨"/root", [("repoA", ["feat"]), ("repoB", ["feat"])],
        fun _ => none, fun _ => true⟩
      "feat" ⟨"repoA", "feat", "/root/repoA/feat"⟩ (by decide)).1

/-! ### Claim theorems: the cleanup branch pass -/

/-- C5: in one cleanup run, branch deletion is attempted exactly for the
local branches outside the protected list (`main`, `master`) whose
worktree storage directory does not exist; a protected branch is never
attempted, and the attempted set is the same for every outcome function
`delete_ok`, so an individual deletion failure never stops the remaining
branches from being processed. -/
theorem cleanup_branch_pass_spec (root repo_name : String)
    (dir_exists delete_ok : String → Bool) (branches : List String) :
    (cleanup_branch_pass root repo_name dir_exists delete_ok branches).map Prod.fst
      = branches.filter (fun b => !main_branches.contains b
          && !dir_exists (get_worktree_path root repo_name b))
    ∧ ∀ x ∈ cleanup_branch_pass root repo_name dir_exists delete_ok branches,
        x.1 ∉ main_branches := by
  induction branches with
  | nil => exact ⟨rfl, by simp [cleanup_branch_pass]⟩
  | cons b rest ih =>
    constructor
    · simp only [cleanup_branch_pass, List.filter_cons]
      by_cases hmem : b ∈ main_branches
      · simp [hmem, ih.1]
      · by_cases hdir : dir_exists (get_worktree_path root repo_name b) = true
        · simp [hmem, hdir, ih.1]
        · have hd' : dir_exists (get_worktree_path root repo_name b) = false := by
            simpa using hdir
          simp [hmem, hd', ih.1]
    · intro x hx
      simp only [cleanup_branch_pass] at hx
      by_cases hmem : b ∈ main_branches
      · have hmain : main_branches.contains b = true := List.elem_iff.mpr hmem
        rw [if_pos hmain] at hx
        exact ih.2 x hx
      · have hmain : ¬ main_branches.contains b = true := by
          intro hc
          exact hmem (List.elem_iff.mp hc)
        rw [if_neg hmain] at hx
        by_cases hdir : dir_exists (get_worktree_path root repo_name b) = true
        · rw [if_pos hdir] at hx
          exact ih.2 x hx
        · rw [if_neg hdir] at hx
          rcases List.mem_cons.1 hx with hx | hx
          · subst hx
            exact hmem
          · exact ih.2 x hx

/-- C5 witness: a concrete run — `main` and `master` are skipped, the
branch with an existing directory is skipped, deletion is attempted for
the rest whatever the per-branch outcome. -/
theorem cleanup_branch_pass_spec_witness :
    (cleanup_branch_pass "/r" "demo" (fun p => p == "/r/demo/keep")
        (fun b => b == "okb") ["main", "keep", "gone", "master", "okb"]).map Prod.fst
      = ["gone", "okb"] :=
  ((cleanup_branch_pass_spec "/r" "demo" (fun p => p == "/r/demo/keep")
      (fun b => b == "okb") ["main", "keep", "gone", "master", "okb"]).1).trans
    (by decide)

/-! ### Claim theorems: copy-pattern merge -/

theorem merge_fold_eq_spec (user : List String) : ∀ base : List String,
    user.foldl (fun acc p => if acc.contains p then acc else acc ++ [p]) base
      = base ++ spec_new_patterns base user := by
  induction user with
  | nil =>
    intro base
    simp [spec_new_patterns]
  | cons p ps ih =>
    intro base
    rw [List.foldl_cons]
    by_cases hp : base.contains p = true
    · have hmem : p ∈ base := List.elem_iff.mp hp
      rw [if_pos hp, ih base]
      simp [spec_new_patterns, hmem]
    · have hmem : p ∉ base := fun hm => hp (List.elem_iff.mpr hm)
      rw [if_neg hp, ih (base ++ [p])]
      simp [spec_new_patterns, hmem]

/-- C6: the merged include list is the default include list followed by
each user include pattern not already present, in user order without
duplicates, and likewise for excludes; every default exclude pattern is
retained in the merged exclude list (a user include never removes it);
and the abstract instance of the claim's example — defaults
`include=["A"], exclude=["B"]` with user `include=["B"]` — yields
`["A","B"]` for the include side while the exclude side keeps `["B"]`. -/
theorem merged_with_defaults_spec (c : CopyPatterns) :
    (merged_with_defaults c).includePats
        = some (spec_merged_patterns default_include_patterns (c.includePats.getD []))
    ∧ (merged_with_defaults c).excludePats
        = some (spec_merged_patterns default_exclude_patterns (c.excludePats.getD []))
    ∧ (∀ p ∈ default_exclude_patterns,
        ∀ l, (merged_with_defaults c).excludePats = some l → p ∈ l)
    ∧ spec_merged_patterns ["A"] ["B"] = ["A", "B"]
    ∧ merge_pattern_list ["B"] none = ["B"] := by
  have hmerge : ∀ (defaults : List String) (user : Option (List String)),
      merge_pattern_list defaults user = spec_merged_patterns defaults (user.getD []) := by
    intro defaults user
    cases user with
    | none => simp [merge_pattern_list, spec_merged_patterns, spec_new_patterns]
    | some ps => exact merge_fold_eq_spec ps defaults
  refine ⟨?_, ?_, ?_, by decide, rfl⟩
  · simp [merged_with_defaults, hmerge]
  · simp [merged_with_defaults, hmerge]
  · intro p hp l hl
    simp only [merged_with_defaults, hmerge, Option.some.injEq] at hl
    rw [← hl]
    exact List.mem_append_left _ hp

/-- C6 witness: a user include that is a default exclude
(`"node_modules/"`) is appended to the include list and still present in
the merged exclude list. -/
theorem merged_with_defaults_spec_witness :
    (merged_with_defaults ⟨some ["node_modules/"], none⟩).includePats
        = some [".env*", ".vscode/", "*.local.json", "config/local/*", "node_modules/"]
    ∧ (merged_with_defaults ⟨some ["node_modules/"], none⟩).excludePats
        = some ["node_modules/", "target/", ".git/", "*.log", "*.tmp"] :=
  ⟨((merged_with_defaults_spec ⟨some ["node_modules/"], none⟩).1).trans (by decide),
    ((merged_with_defaults_spec ⟨some ["node_modules/"], none⟩).2.1).trans (by decide)⟩

end Worktree
